import Mathlib

/-!
Shallow embedding of the reconciliation core of `seller.py` and `market.py`.

Supplier rows (`watch_remnants` entries) are dictionaries with the keys
`Код` (code), `Количество` (quantity string) and `Цена` (price string);
they are modelled by the structure `Watch` below.  The mutable
`offer_ids` list is threaded explicitly through each loop, so a function
that mutates it in Python returns the final list here.  A Python
`ValueError` raised by `int(...)` is modelled by `Option`: `none` means
the call raises.
-/

set_option autoImplicit false

/-- One row of the supplier feed: fields `Код`, `Количество`, `Цена`. -/
structure Watch where
  kod : String
  kolichestvo : String
  tsena : String
deriving DecidableEq

/-- Strip leading and trailing whitespace, as Python's `int` does before
parsing. -/
def pyStrip (s : List Char) : List Char :=
  ((s.dropWhile Char.isWhitespace).reverse.dropWhile Char.isWhitespace).reverse

/-- Value of a digit string, most significant digit first. -/
def digitsVal (ds : List Char) : Nat :=
  ds.foldl (fun n c => 10 * n + (c.toNat - 48)) 0

/-- Model of Python's `int(s)` on a string: optional surrounding
whitespace, an optional sign, then a nonempty run of decimal digits;
anything else raises `ValueError`, modelled as `none`. -/
def pyInt (s : String) : Option Int :=
  match pyStrip s.toList with
  | [] => none
  | '+' :: ds =>
    if ds ≠ [] ∧ ds.all Char.isDigit then some (digitsVal ds : Int) else none
  | '-' :: ds =>
    if ds ≠ [] ∧ ds.all Char.isDigit then some (-(digitsVal ds : Int)) else none
  | ds =>
    if ds.all Char.isDigit then some (digitsVal ds : Int) else none

/-- Model of Python's `str.split(".")`: split on every dot, keeping empty
pieces, so the head of the result is the part before the first dot. -/
def pySplitDot : List Char → List (List Char)
  | [] => [[]]
  | c :: cs =>
    if c = '.' then [] :: pySplitDot cs
    else
      match pySplitDot cs with
      | [] => [[c]]
      | p :: ps => (c :: p) :: ps

/-- `price_conversion` from `seller.py`:
`re.sub("[^0-9]", "", price.split(".")[0])`. -/
def price_conversion (price : String) : String :=
  String.mk (((pySplitDot price.toList).headD []).filter Char.isDigit)

/-- The quantity-normalization rule shared by both `create_stocks`
implementations: `">10"` becomes 100, `"1"` becomes 0, anything else is
passed to `int(...)` (which raises, i.e. `none`, on non-numeric input). -/
def normalizeCount (count : String) : Option Int :=
  if count = ">10" then some 100
  else if count = "1" then some 0
  else pyInt count

/-- One entry of the list returned by `seller.create_stocks`. -/
structure StockItem where
  offer_id : String
  stock : Int
deriving DecidableEq

/-- One entry of the list returned by `seller.create_prices`. -/
structure PriceItem where
  auto_action_enabled : String
  currency_code : String
  offer_id : String
  old_price : String
  price : String
deriving DecidableEq

namespace Seller

/-- The first loop of `seller.create_stocks`: for each supplier row whose
code is in `offer_ids`, emit a stock record and erase the code from
`offer_ids` (Python's `list.remove` drops the first occurrence).  The
final `offer_ids` list is returned alongside the emitted records. -/
def create_stocksLoop : List Watch → List String → Option (List StockItem × List String)
  | [], ids => some ([], ids)
  | w :: ws, ids =>
    if w.kod ∈ ids then
      match normalizeCount w.kolichestvo with
      | none => none
      | some s =>
        (create_stocksLoop ws (ids.erase w.kod)).map
          (fun p => (⟨w.kod, s⟩ :: p.1, p.2))
    else create_stocksLoop ws ids

/-- `seller.create_stocks`: the matching loop followed by a zero-stock
record for every identifier still left in `offer_ids`.  Returns the
emitted list together with the final state of `offer_ids`. -/
def create_stocks (watch_remnants : List Watch) (offer_ids : List String) :
    Option (List StockItem × List String) :=
  (create_stocksLoop watch_remnants offer_ids).map
    (fun p => (p.1 ++ p.2.map (fun i => ⟨i, 0⟩), p.2))

/-- The record literal built inside `seller.create_prices`. -/
def priceItemOf (w : Watch) : PriceItem :=
  ⟨"UNKNOWN", "RUB", w.kod, "0", price_conversion w.tsena⟩

/-- The loop of `seller.create_prices`, threading `offer_ids` (which the
loop body never modifies). -/
def create_pricesLoop : List Watch → List String → List PriceItem × List String
  | [], ids => ([], ids)
  | w :: ws, ids =>
    if w.kod ∈ ids then
      let p := create_pricesLoop ws ids
      (priceItemOf w :: p.1, p.2)
    else create_pricesLoop ws ids

/-- `seller.create_prices`: one price record per supplier row whose code
is listed; returns the emitted list with the final state of `offer_ids`. -/
def create_prices (watch_remnants : List Watch) (offer_ids : List String) :
    List PriceItem × List String :=
  create_pricesLoop watch_remnants offer_ids

end Seller

/-- One element of the `items` list inside a `market.create_stocks`
record. -/
structure MarketStockEntry where
  count : Int
  type : String
  updatedAt : String
deriving DecidableEq

/-- One entry of the list returned by `market.create_stocks`. -/
structure MarketStockItem where
  sku : String
  warehouseId : String
  items : List MarketStockEntry
deriving DecidableEq

/-- The `price` sub-dictionary of a `market.create_prices` record. -/
structure MarketPrice where
  value : Int
  currencyId : String
deriving DecidableEq

/-- One entry of the list returned by `market.create_prices`. -/
structure MarketPriceItem where
  id : String
  price : MarketPrice
deriving DecidableEq

namespace Market

/-- The first loop of `market.create_stocks`.  `date` is the timestamp
string computed once, before the loop, from `datetime.datetime.utcnow()`;
it is a parameter of the embedding since it is read from the clock. -/
def create_stocksLoop : List Watch → List String → String → String →
    Option (List MarketStockItem × List String)
  | [], ids, _, _ => some ([], ids)
  | w :: ws, ids, wh, d =>
    if w.kod ∈ ids then
      match normalizeCount w.kolichestvo with
      | none => none
      | some s =>
        (create_stocksLoop ws (ids.erase w.kod) wh d).map
          (fun p => (⟨w.kod, wh, [⟨s, "FIT", d⟩]⟩ :: p.1, p.2))
    else create_stocksLoop ws ids wh d

/-- `market.create_stocks`: the matching loop followed by a zero-count
record (with the same warehouse and timestamp) for every identifier left
in `offer_ids`. -/
def create_stocks (watch_remnants : List Watch) (offer_ids : List String)
    (warehouse_id : String) (date : String) :
    Option (List MarketStockItem × List String) :=
  (create_stocksLoop watch_remnants offer_ids warehouse_id date).map
    (fun p => (p.1 ++ p.2.map (fun i => ⟨i, warehouse_id, [⟨0, "FIT", date⟩]⟩), p.2))

/-- The loop of `market.create_prices`: the record holds
`int(price_conversion(watch.get("Цена")))`, so an empty normalization
result raises (`none`). -/
def create_pricesLoop : List Watch → List String →
    Option (List MarketPriceItem × List String)
  | [], ids => some ([], ids)
  | w :: ws, ids =>
    if w.kod ∈ ids then
      match pyInt (price_conversion w.tsena) with
      | none => none
      | some v =>
        (create_pricesLoop ws ids).map (fun p => (⟨w.kod, ⟨v, "RUR"⟩⟩ :: p.1, p.2))
    else create_pricesLoop ws ids

/-- `market.create_prices`, returning the emitted list with the final
state of `offer_ids`. -/
def create_prices (watch_remnants : List Watch) (offer_ids : List String) :
    Option (List MarketPriceItem × List String) :=
  create_pricesLoop watch_remnants offer_ids

end Market

/-- `divide` from `seller.py`: `for i in range(0, len(lst), n): yield
lst[i:i+n]`.  A zero step makes Python's `range` raise, so the `n = 0`
case yields nothing; all claims concern positive `n`. -/
def divide {α : Type} (lst : List α) (n : Nat) : List (List α) :=
  match lst, n with
  | [], _ => []
  | _ :: _, 0 => []
  | a :: as, m + 1 => List.take (m + 1) (a :: as) :: divide (List.drop m as) (m + 1)
termination_by lst.length
decreasing_by simp [List.length_drop]; omega

namespace Seller

/-- The final `offer_ids` list of the matching loop is a sublist of the
initial one. -/
theorem create_stocksLoop_sublist (ws : List Watch) :
    ∀ ids st fin, create_stocksLoop ws ids = some (st, fin) → List.Sublist fin ids := by
  induction ws with
  | nil =>
    intro ids st fin h
    simp only [create_stocksLoop, Option.some.injEq, Prod.mk.injEq] at h
    rw [← h.2]
  | cons w ws ih =>
    intro ids st fin h
    simp only [create_stocksLoop] at h
    by_cases hmem : w.kod ∈ ids
    · rw [if_pos hmem] at h
      cases hn : normalizeCount w.kolichestvo with
      | none => rw [hn] at h; simp at h
      | some s =>
        rw [hn] at h
        rw [Option.map_eq_some'] at h
        obtain ⟨p, hp, hps⟩ := h
        cases hps
        exact (ih _ _ _ hp).trans (List.erase_sublist _ _)
    · rw [if_neg hmem] at h
      exact ih _ _ _ h

/-- An identifier matching no supplier row survives the matching loop
untouched and appears in no emitted record. -/
theorem create_stocksLoop_not_matched (oid : String) :
    ∀ ws : List Watch, (∀ w ∈ ws, w.kod ≠ oid) →
    ∀ ids st fin, create_stocksLoop ws ids = some (st, fin) →
      ((oid ∈ fin ↔ oid ∈ ids) ∧ ∀ r ∈ st, r.offer_id ≠ oid) := by
  intro ws
  induction ws with
  | nil =>
    intro _ ids st fin h
    simp only [create_stocksLoop, Option.some.injEq, Prod.mk.injEq] at h
    constructor
    · rw [← h.2]
    · intro r hr; rw [← h.1] at hr; simp at hr
  | cons w ws ih =>
    intro hws ids st fin h
    have hkw : w.kod ≠ oid := hws w (List.mem_cons_self w ws)
    have hws' : ∀ w' ∈ ws, w'.kod ≠ oid := fun w' hw' => hws w' (List.mem_cons_of_mem w hw')
    simp only [create_stocksLoop] at h
    by_cases hmem : w.kod ∈ ids
    · rw [if_pos hmem] at h
      cases hn : normalizeCount w.kolichestvo with
      | none => rw [hn] at h; simp at h
      | some s =>
        rw [hn] at h
        rw [Option.map_eq_some'] at h
        obtain ⟨p, hp, hps⟩ := h
        cases hps
        obtain ⟨hfin, hst⟩ := ih hws' _ _ _ hp
        constructor
        · rw [hfin]
          exact List.mem_erase_of_ne (Ne.symm hkw)
        · intro r hr
          rcases List.mem_cons.mp hr with hr | hr
          · rw [hr]; exact hkw
          · exact hst r hr
    · rw [if_neg hmem] at h
      exact ih hws' _ _ _ h

/-- In a duplicate-free list containing `a`, filtering for `a` leaves
exactly one occurrence. -/
theorem filter_beq_singleton {a : String} :
    ∀ l : List String, l.Nodup → a ∈ l → l.filter (fun x => x == a) = [a] := by
  intro l
  induction l with
  | nil => intro _ ha; simp at ha
  | cons b l ih =>
    intro hnd ha
    rcases List.mem_cons.mp ha with hb | hl
    · subst hb
      have : l.filter (fun x => x == a) = [] := by
        rw [List.filter_eq_nil_iff]
        intro x hx
        simp only [beq_iff_eq]
        intro hxa
        exact (List.nodup_cons.mp hnd).1 (hxa ▸ hx)
      simp [List.filter_cons, this]
    · have hba : ¬(b == a) = true := by
        simp only [beq_iff_eq]
        intro hba
        exact (List.nodup_cons.mp hnd).1 (hba ▸ hl)
      simp only [List.filter_cons]
      rw [if_neg hba]
      exact ih (List.nodup_cons.mp hnd).2 hl

/-- An identifier whose unique supplier row sits anywhere in the feed is
emitted exactly once by the matching loop, with the normalized quantity,
and is erased from `offer_ids`. -/
theorem create_stocksLoop_matched (oid : String) (w0 : Watch) (hkod : w0.kod = oid) :
    ∀ ws : List Watch, w0 ∈ ws → (ws.map Watch.kod).Nodup →
    ∀ ids st fin, ids.Nodup → oid ∈ ids →
      create_stocksLoop ws ids = some (st, fin) →
      ∃ s, normalizeCount w0.kolichestvo = some s ∧
        st.filter (fun r => r.offer_id == oid) = [⟨oid, s⟩] ∧ oid ∉ fin := by
  intro ws
  induction ws with
  | nil => intro h0; simp at h0
  | cons w ws ih =>
    intro h0 hnd ids st fin hids hoid h
    simp only [create_stocksLoop] at h
    rcases List.mem_cons.mp h0 with h0 | h0
    · subst h0
      rw [hkod] at h
      rw [if_pos hoid] at h
      cases hn : normalizeCount w0.kolichestvo with
      | none => rw [hn] at h; simp at h
      | some s =>
        rw [hn] at h
        rw [Option.map_eq_some'] at h
        obtain ⟨p, hp, hps⟩ := h
        cases hps
        have hnd2 := hnd
        rw [List.map_cons, List.nodup_cons] at hnd2
        have hrest : ∀ w' ∈ ws, w'.kod ≠ oid := by
          intro w' hw' he
          have hm : w0.kod ∈ ws.map Watch.kod := by
            rw [hkod, ← he]
            exact List.mem_map_of_mem Watch.kod hw'
          exact hnd2.1 hm
        obtain ⟨hfin, hst⟩ := create_stocksLoop_not_matched oid ws hrest _ _ _ hp
        refine ⟨s, rfl, ?_, ?_⟩
        · simp only [List.filter_cons]
          rw [if_pos (by simp)]
          have : p.1.filter (fun r => r.offer_id == oid) = [] := by
            rw [List.filter_eq_nil_iff]
            intro r hr
            simpa using hst r hr
          rw [this]
        · rw [hfin]
          intro hmem
          have := (List.Nodup.mem_erase_iff hids).mp hmem
          exact this.1 rfl
    · have hnd2 := hnd
      rw [List.map_cons, List.nodup_cons] at hnd2
      have hkw : w.kod ≠ oid := by
        intro he
        have h2 : oid ∈ ws.map Watch.kod := hkod ▸ List.mem_map_of_mem Watch.kod h0
        exact hnd2.1 (he ▸ h2)
      have hnd' : (ws.map Watch.kod).Nodup := hnd2.2
      by_cases hmem : w.kod ∈ ids
      · rw [if_pos hmem] at h
        cases hn : normalizeCount w.kolichestvo with
        | none => rw [hn] at h; simp at h
        | some s' =>
          rw [hn] at h
          rw [Option.map_eq_some'] at h
          obtain ⟨p, hp, hps⟩ := h
          cases hps
          obtain ⟨s, hs, hfilter, hfin⟩ :=
            ih h0 hnd' _ _ _ (List.Nodup.erase w.kod hids)
              ((List.mem_erase_of_ne (Ne.symm hkw)).mpr hoid) hp
          refine ⟨s, hs, ?_, hfin⟩
          simp only [List.filter_cons]
          rw [if_neg (by simpa using hkw)]
          exact hfilter
      · rw [if_neg hmem] at h
        exact ih h0 hnd' _ _ _ hids hoid h

/-- Filtering a mapped duplicate-free identifier list for a present
identifier yields exactly its image. -/
theorem filter_offer_map (f : String → StockItem) (hf : ∀ i, (f i).offer_id = i)
    (oid : String) :
    ∀ l : List String, l.Nodup → oid ∈ l →
      (l.map f).filter (fun r => r.offer_id == oid) = [f oid] := by
  intro l
  induction l with
  | nil => intro _ ha; simp at ha
  | cons b l ih =>
    intro hnd ha
    simp only [List.map_cons, List.filter_cons]
    rcases List.mem_cons.mp ha with hb | hl
    · subst hb
      rw [if_pos (by simp [hf])]
      have : (l.map f).filter (fun r => r.offer_id == oid) = [] := by
        rw [List.filter_eq_nil_iff]
        intro r hr
        obtain ⟨i, hi, rfl⟩ := List.mem_map.mp hr
        simp only [hf, beq_iff_eq]
        intro he
        exact (List.nodup_cons.mp hnd).1 (he ▸ hi)
      rw [this]
    · have hb : b ≠ oid := by
        intro he
        exact (List.nodup_cons.mp hnd).1 (he ▸ hl)
      rw [if_neg (by simp [hf, hb])]
      exact ih (List.nodup_cons.mp hnd).2 hl

/-- Filtering a mapped identifier list for an absent identifier yields
nothing. -/
theorem filter_offer_map_nil (f : String → StockItem) (hf : ∀ i, (f i).offer_id = i)
    (oid : String) (l : List String) (ha : oid ∉ l) :
    (l.map f).filter (fun r => r.offer_id == oid) = [] := by
  rw [List.filter_eq_nil_iff]
  intro r hr
  obtain ⟨i, hi, rfl⟩ := List.mem_map.mp hr
  simp only [hf, beq_iff_eq]
  intro he
  exact ha (he ▸ hi)

end Seller

/-- `market.create_stocks` runs the same matching loop as
`seller.create_stocks`, dressing each emitted record in the marketplace
schema (`sku`/`warehouseId`/`items`). -/
theorem market_stocksLoop_eq (wh d : String) :
    ∀ (ws : List Watch) (ids : List String),
      Market.create_stocksLoop ws ids wh d =
        (Seller.create_stocksLoop ws ids).map
          (fun p => (p.1.map (fun r => ⟨r.offer_id, wh, [⟨r.stock, "FIT", d⟩]⟩), p.2)) := by
  intro ws
  induction ws with
  | nil => intro ids; simp [Market.create_stocksLoop, Seller.create_stocksLoop]
  | cons w ws ih =>
    intro ids
    simp only [Market.create_stocksLoop, Seller.create_stocksLoop]
    by_cases hmem : w.kod ∈ ids
    · rw [if_pos hmem, if_pos hmem]
      cases hn : normalizeCount w.kolichestvo with
      | none => simp
      | some s =>
        simp only
        rw [ih]
        cases hq : Seller.create_stocksLoop ws (ids.erase w.kod) with
        | none => simp
        | some p => simp
    · rw [if_neg hmem, if_neg hmem]
      exact ih ids

/-- Whole-function version of `market_stocksLoop_eq`, covering the
zero-record tails as well. -/
theorem market_create_stocks_eq (ws : List Watch) (ids : List String) (wh d : String) :
    Market.create_stocks ws ids wh d =
      (Seller.create_stocks ws ids).map
        (fun p => (p.1.map (fun r => ⟨r.offer_id, wh, [⟨r.stock, "FIT", d⟩]⟩), p.2)) := by
  rw [Market.create_stocks, Seller.create_stocks, market_stocksLoop_eq]
  cases Seller.create_stocksLoop ws ids with
  | none => rfl
  | some p => simp [List.map_append, List.map_map, Function.comp]

/-- Concatenating the chunks of `divide` rebuilds the input. -/
theorem divide_flatten {α : Type} : ∀ (lst : List α) (n : Nat), 0 < n →
    (divide lst n).flatten = lst := by
  intro lst n
  induction lst, n using divide.induct with
  | case1 n => intro _; simp [divide]
  | case2 head tail => intro h; exact absurd h (lt_irrefl 0)
  | case3 a as m ih =>
    intro _
    simp only [divide, List.flatten_cons]
    rw [ih (Nat.succ_pos m), List.take_succ_cons]
    simp [List.take_append_drop]

/-- Every chunk of `divide` is nonempty and no longer than `n`. -/
theorem divide_chunk_len {α : Type} : ∀ (lst : List α) (n : Nat), 0 < n →
    ∀ c ∈ divide lst n, 1 ≤ c.length ∧ c.length ≤ n := by
  intro lst n
  induction lst, n using divide.induct with
  | case1 n => intro _ c hc; simp [divide] at hc
  | case2 head tail => intro h; exact absurd h (lt_irrefl 0)
  | case3 a as m ih =>
    intro _ c hc
    simp only [divide] at hc
    rcases List.mem_cons.mp hc with hc | hc
    · subst hc
      simp only [List.length_take, List.length_cons]
      omega
    · exact ih (Nat.succ_pos m) c hc

/-- `divide` yields no chunks exactly on the empty input. -/
theorem divide_eq_nil_iff {α : Type} (lst : List α) (n : Nat) (hn : 0 < n) :
    divide lst n = [] ↔ lst = [] := by
  cases lst with
  | nil => simp [divide]
  | cons a as =>
    cases n with
    | zero => exact absurd hn (lt_irrefl 0)
    | succ m => simp [divide]

/-- Every chunk of `divide` except possibly the last has length exactly
`n`. -/
theorem divide_dropLast {α : Type} : ∀ (lst : List α) (n : Nat), 0 < n →
    ∀ c ∈ (divide lst n).dropLast, c.length = n := by
  intro lst n
  induction lst, n using divide.induct with
  | case1 n => intro _ c hc; simp [divide] at hc
  | case2 head tail => intro h; exact absurd h (lt_irrefl 0)
  | case3 a as m ih =>
    intro _ c hc
    simp only [divide] at hc
    cases hD : divide (List.drop m as) (m + 1) with
    | nil => rw [hD] at hc; simp at hc
    | cons dd DD =>
      rw [hD, List.dropLast_cons₂] at hc
      rcases List.mem_cons.mp hc with hc | hc
      · subst hc
        have hne : List.drop m as ≠ [] := by
          intro h0
          rw [h0] at hD
          simp [divide] at hD
        have hlen : m < as.length := by
          by_contra hle
          push_neg at hle
          exact hne (List.drop_eq_nil_of_le hle)
        simp only [List.length_take, List.length_cons]
        omega
      · have := ih (Nat.succ_pos m) c
        rw [hD] at this
        exact this hc

/-- `seller.create_prices` emits exactly the listed supplier rows, in
feed order, and returns `offer_ids` unchanged. -/
theorem seller_pricesLoop_eq (ids : List String) :
    ∀ ws : List Watch,
      Seller.create_pricesLoop ws ids =
        ((ws.filter (fun w => decide (w.kod ∈ ids))).map Seller.priceItemOf, ids) := by
  intro ws
  induction ws with
  | nil => rfl
  | cons w ws ih =>
    simp only [Seller.create_pricesLoop, List.filter_cons]
    by_cases hmem : w.kod ∈ ids
    · rw [if_pos hmem, ih]
      simp [hmem]
    · rw [if_neg hmem, ih]
      simp [hmem]

/-- When `market.create_prices` completes, the `offer_ids` list it was
given is unchanged. -/
theorem market_pricesLoop_snd :
    ∀ (ws : List Watch) (ids : List String) (l : List MarketPriceItem) (fin : List String),
      Market.create_pricesLoop ws ids = some (l, fin) → fin = ids := by
  intro ws
  induction ws with
  | nil =>
    intro ids l fin h
    simp only [Market.create_pricesLoop, Option.some.injEq, Prod.mk.injEq] at h
    exact h.2.symm
  | cons w ws ih =>
    intro ids l fin h
    simp only [Market.create_pricesLoop] at h
    by_cases hmem : w.kod ∈ ids
    · rw [if_pos hmem] at h
      cases hv : pyInt (price_conversion w.tsena) with
      | none => rw [hv] at h; simp at h
      | some v =>
        rw [hv] at h
        rw [Option.map_eq_some'] at h
        obtain ⟨p, hp, hps⟩ := h
        cases hps
        exact ih _ _ _ hp
    · rw [if_neg hmem] at h
      exact ih _ _ _ h

/-- When `market.create_prices` completes, the emitted list is exactly
one record per supplier row whose code is listed, in feed order, holding
the integer parse of the normalized price (under completion no matched
price is unparseable, so `getD 0` is the parsed value). -/
theorem market_pricesLoop_some_eq :
    ∀ (ws : List Watch) (ids : List String) (l : List MarketPriceItem) (fin : List String),
      Market.create_pricesLoop ws ids = some (l, fin) →
      l = (ws.filter (fun w => decide (w.kod ∈ ids))).map
          (fun w => ⟨w.kod, ⟨(pyInt (price_conversion w.tsena)).getD 0, "RUR"⟩⟩) := by
  intro ws
  induction ws with
  | nil =>
    intro ids l fin h
    simp only [Market.create_pricesLoop, Option.some.injEq, Prod.mk.injEq] at h
    simp [← h.1]
  | cons w ws ih =>
    intro ids l fin h
    simp only [Market.create_pricesLoop] at h
    simp only [List.filter_cons]
    by_cases hmem : w.kod ∈ ids
    · rw [if_pos hmem] at h
      rw [if_pos (by simpa using hmem)]
      cases hv : pyInt (price_conversion w.tsena) with
      | none => rw [hv] at h; simp at h
      | some v =>
        rw [hv] at h
        rw [Option.map_eq_some'] at h
        obtain ⟨p, hp, hps⟩ := h
        cases hps
        simp only [List.map_cons, hv, Option.getD_some]
        rw [← ih _ _ _ hp]
    · rw [if_neg hmem] at h
      rw [if_neg (by simpa using hmem)]
      exact ih _ _ _ h

/-- `market.create_prices` raises exactly when some listed supplier row
has a price whose normalization does not parse as an integer. -/
theorem market_pricesLoop_none_iff :
    ∀ (ws : List Watch) (ids : List String),
      Market.create_pricesLoop ws ids = none ↔
        ∃ w ∈ ws, w.kod ∈ ids ∧ pyInt (price_conversion w.tsena) = none := by
  intro ws
  induction ws with
  | nil => intro ids; simp [Market.create_pricesLoop]
  | cons w ws ih =>
    intro ids
    simp only [Market.create_pricesLoop]
    by_cases hmem : w.kod ∈ ids
    · rw [if_pos hmem]
      cases hv : pyInt (price_conversion w.tsena) with
      | none =>
        constructor
        · intro _
          exact ⟨w, List.mem_cons_self w ws, hmem, hv⟩
        · intro _
          rfl
      | some v =>
        rw [Option.map_eq_none', ih ids]
        constructor
        · rintro ⟨w', hw', hc⟩
          exact ⟨w', List.mem_cons_of_mem w hw', hc⟩
        · rintro ⟨w', hw', hmem', hpy⟩
          rcases List.mem_cons.mp hw' with rfl | hw'
          · rw [hv] at hpy
            exact absurd hpy (by simp)
          · exact ⟨w', hw', hmem', hpy⟩
    · rw [if_neg hmem, ih ids]
      constructor
      · rintro ⟨w', hw', hc⟩
        exact ⟨w', List.mem_cons_of_mem w hw', hc⟩
      · rintro ⟨w', hw', hmem', hpy⟩
        rcases List.mem_cons.mp hw' with rfl | hw'
        · exact absurd hmem' hmem
        · exact ⟨w', hw', hmem', hpy⟩

/-- `pySplitDot` never returns an empty list of pieces, like Python's
`str.split`. -/
theorem pySplitDot_ne_nil : ∀ s : List Char, pySplitDot s ≠ [] := by
  intro s
  induction s with
  | nil => simp [pySplitDot]
  | cons c cs ih =>
    simp only [pySplitDot]
    by_cases hc : c = '.'
    · rw [if_pos hc]; simp
    · rw [if_neg hc]
      cases hq : pySplitDot cs with
      | nil => exact absurd hq ih
      | cons p ps => simp

/-- The first piece of `pySplitDot` is the prefix before the first dot. -/
theorem pySplitDot_headD :
    ∀ s : List Char, (pySplitDot s).headD [] = s.takeWhile (fun c => c ≠ '.') := by
  intro s
  induction s with
  | nil => rfl
  | cons c cs ih =>
    simp only [pySplitDot]
    by_cases hc : c = '.'
    · rw [if_pos hc]
      subst hc
      simp [List.takeWhile_cons]
    · rw [if_neg hc]
      cases hq : pySplitDot cs with
      | nil => exact absurd hq (pySplitDot_ne_nil cs)
      | cons p ps =>
        rw [hq] at ih
        simp only [List.headD_cons] at ih ⊢
        rw [List.takeWhile_cons, if_pos (by simpa using hc), ih]

/-- C1: for supplier feeds with pairwise-distinct codes and
duplicate-free offer-identifier lists, when `create_stocks` completes,
every identifier listed at the start appears in exactly one record of
the returned list — with the normalized supplier quantity when a
supplier row matches it, and with quantity zero otherwise; and
`market.create_stocks` is this same reconciliation with each record
dressed in the marketplace schema. -/
theorem create_stocks_covers_each_listed_offer
    (ws : List Watch) (ids : List String)
    (hw : (ws.map Watch.kod).Nodup) (hi : ids.Nodup)
    (st : List StockItem) (fin : List String)
    (h : Seller.create_stocks ws ids = some (st, fin))
    (oid : String) (ho : oid ∈ ids) (wh d : String) :
    ((∀ w ∈ ws, w.kod ≠ oid) →
      st.filter (fun r => r.offer_id == oid) = [⟨oid, 0⟩])
    ∧ (∀ w ∈ ws, w.kod = oid →
        ∃ s, normalizeCount w.kolichestvo = some s ∧
          st.filter (fun r => r.offer_id == oid) = [⟨oid, s⟩])
    ∧ Market.create_stocks ws ids wh d =
        (Seller.create_stocks ws ids).map
          (fun p => (p.1.map (fun r => ⟨r.offer_id, wh, [⟨r.stock, "FIT", d⟩]⟩), p.2)) := by
  refine ?_
  rw [Seller.create_stocks, Option.map_eq_some'] at h
  obtain ⟨p, hp, hps⟩ := h
  cases hps
  have hsub := Seller.create_stocksLoop_sublist ws _ _ _ hp
  have hfin_nd : p.2.Nodup := List.Nodup.sublist hsub hi
  refine ⟨?_, ?_, market_create_stocks_eq ws ids wh d⟩
  · intro hno
    obtain ⟨hiff, hemit⟩ := Seller.create_stocksLoop_not_matched oid ws hno _ _ _ hp
    have h1 : p.1.filter (fun r => r.offer_id == oid) = [] := by
      rw [List.filter_eq_nil_iff]
      intro r hr
      simpa using hemit r hr
    rw [List.filter_append, h1, List.nil_append]
    exact Seller.filter_offer_map (fun i => ⟨i, 0⟩) (fun i => rfl) oid p.2 hfin_nd
      (hiff.mpr ho)
  · intro w hwmem hweq
    obtain ⟨s, hs, hfilter, hnofin⟩ :=
      Seller.create_stocksLoop_matched oid w hweq ws hwmem hw _ _ _ hi ho hp
    refine ⟨s, hs, ?_⟩
    rw [List.filter_append, hfilter]
    rw [Seller.filter_offer_map_nil (fun i => ⟨i, 0⟩) (fun i => rfl) oid p.2 hnofin]
    simp

/-- Witness for C1 at a concrete input: with feed `[{A, ">10"}]` and
offer identifiers `[A, B]`, the unmatched identifier `B` appears in
exactly one record, with quantity zero. -/
theorem create_stocks_covers_each_listed_offer_witness :
    List.filter (fun r => r.offer_id == ("B")) [(⟨("A"), 100⟩ : StockItem), ⟨("B"), 0⟩] =
      [⟨("B"), 0⟩] :=
  (create_stocks_covers_each_listed_offer [⟨("A"), (">10"), ("1")⟩] [("A"), ("B")]
    (by decide) (by decide) [⟨("A"), 100⟩, ⟨("B"), 0⟩] [("B")] rfl ("B") (by decide)
    ("W") ("T")).1 (by decide)

/-- C2 counterexample: on the spec's own example the returned list is
`[{A,100},{B,0},{C,0}]` as claimed, but the `offer_ids` list is NOT
empty after the call — it still holds the unmatched identifier `C`,
because only matched codes are removed. -/
theorem create_stocks_offer_ids_not_emptied :
    Seller.create_stocks [⟨("A"), (">10"), ("0")⟩, ⟨("B"), ("1"), ("0")⟩]
        [("A"), ("B"), ("C")] =
      some ([⟨("A"), 100⟩, ⟨("B"), 0⟩, ⟨("C"), 0⟩], [("C")])
    ∧ ([("C")] : List String) ≠ [] :=
  ⟨rfl, by decide⟩

/-- C2 amended: the example yields exactly `[{A,100},{B,0},{C,0}]` —
matched records first in supplier order, then zero-records for the
unmatched identifiers in their original order — and after the call
`offer_ids` holds exactly the unmatched identifiers, here `[C]`. -/
theorem create_stocks_example_output :
    Seller.create_stocks [⟨("A"), (">10"), ("0")⟩, ⟨("B"), ("1"), ("0")⟩]
        [("A"), ("B"), ("C")] =
      some ([⟨("A"), 100⟩, ⟨("B"), 0⟩, ⟨("C"), 0⟩], [("C")]) :=
  rfl

/-- C3: for a supplier record matched against the offer list, the
emitted stock quantity is 100 for the literal `">10"`, 0 for the literal
`"1"`, and the parsed integer for any other numeric string. -/
theorem stock_quantity_rule (w : Watch) (ids : List String) (st : List StockItem)
    (fin : List String) (hmem : w.kod ∈ ids)
    (h : Seller.create_stocks [w] ids = some (st, fin)) :
    (w.kolichestvo = (">10") → st.head? = some ⟨w.kod, 100⟩)
    ∧ (w.kolichestvo = ("1") → st.head? = some ⟨w.kod, 0⟩)
    ∧ (∀ k : Int, w.kolichestvo ≠ (">10") → w.kolichestvo ≠ ("1") →
        pyInt w.kolichestvo = some k → st.head? = some ⟨w.kod, k⟩) := by
  have key : ∀ s : Int, normalizeCount w.kolichestvo = some s →
      st.head? = some ⟨w.kod, s⟩ := by
    intro s hs
    rw [Seller.create_stocks] at h
    simp only [Seller.create_stocksLoop, if_pos hmem, hs, Option.map_some'] at h
    simp only [Option.some.injEq, Prod.mk.injEq] at h
    rw [← h.1]
    rfl
  refine ⟨?_, ?_, ?_⟩
  · intro h10
    exact key 100 (by simp [normalizeCount, h10])
  · intro h1
    exact key 0 (by simp [normalizeCount, h1])
  · intro k h10 h1 hpy
    exact key k (by simp [normalizeCount, h10, h1, hpy])

/-- Witness for C3: the record `{A, ">10"}` matched against `[A, B]` is
emitted with quantity 100. -/
theorem stock_quantity_rule_witness :
    List.head? [(⟨("A"), 100⟩ : StockItem), ⟨("B"), 0⟩] = some ⟨("A"), 100⟩ :=
  (stock_quantity_rule ⟨("A"), (">10"), ("1")⟩ [("A"), ("B")]
    [⟨("A"), 100⟩, ⟨("B"), 0⟩] [("B")] (by decide) rfl).1 rfl

/-- C4 counterexample: a malformed quantity makes `seller.create_stocks`
raise `ValueError` (modelled `none`), and a malformed price makes
`market.create_prices` raise on `int("")` — reconciliation does not
degrade gracefully in these two places. -/
theorem reconciliation_can_raise :
    Seller.create_stocks [⟨("A"), ("abc"), ("1")⟩] [("A")] = none
    ∧ Market.create_prices [⟨("A"), ("1"), ("abc")⟩] [("A")] = none :=
  ⟨rfl, rfl⟩

/-- C4 amended: price normalization itself never raises and
`seller.create_prices` degrades gracefully, emitting the (possibly
empty) digit string; but `create_stocks` raises on a matched record
whose quantity is neither sentinel nor numeric, and
`market.create_prices` raises on a matched record whose normalized price
does not parse as an integer. -/
theorem reconciliation_error_behaviour (kod q p : String) (ids : List String)
    (hmem : kod ∈ ids) :
    (q ≠ (">10") → q ≠ ("1") → pyInt q = none →
      Seller.create_stocks [⟨kod, q, p⟩] ids = none)
    ∧ (pyInt (price_conversion p) = none →
      Market.create_prices [⟨kod, q, p⟩] ids = none)
    ∧ Seller.create_prices [⟨kod, q, p⟩] ids =
        ([⟨("UNKNOWN"), ("RUB"), kod, ("0"), price_conversion p⟩], ids) := by
  refine ⟨?_, ?_, ?_⟩
  · intro h10 h1 hpy
    rw [Seller.create_stocks]
    simp only [Seller.create_stocksLoop, if_pos hmem]
    simp [normalizeCount, h10, h1, hpy]
  · intro hpy
    rw [Market.create_prices]
    simp only [Market.create_pricesLoop, if_pos hmem]
    simp [hpy]
  · rw [Seller.create_prices]
    simp only [Seller.create_pricesLoop, if_pos hmem]
    rfl

/-- Witness for C4 at a fully malformed record. -/
theorem reconciliation_error_behaviour_witness :
    Seller.create_stocks [⟨("A"), ("abc"), ("xyz")⟩] [("A")] = none
    ∧ Market.create_prices [⟨("A"), ("abc"), ("xyz")⟩] [("A")] = none
    ∧ Seller.create_prices [⟨("A"), ("abc"), ("xyz")⟩] [("A")] =
        ([⟨("UNKNOWN"), ("RUB"), ("A"), ("0"), ("")⟩], [("A")]) := by
  have h := reconciliation_error_behaviour ("A") ("abc") ("xyz") [("A")] (by decide)
  exact ⟨h.1 (by decide) (by decide) rfl, h.2.1 rfl, h.2.2.trans (by decide)⟩

/-- C5 counterexample: a matched record whose price normalizes to the
empty string makes `market.create_prices` raise (`none`) instead of
emitting a record with price 0. -/
theorem market_create_prices_empty_price_raises :
    Market.create_prices [⟨("A"), ("1"), (".")⟩] [("A"), ("B")] = none :=
  rfl

/-- C5 amended: `create_prices` emits exactly one record per supplier
record whose code is listed and none for unmatched identifiers;
`seller.py` emits the normalized price string itself, while `market.py`
converts it to an integer and raises when the normalization result is
empty.  On the spec's example, `{A, "999.00"}` with offers `[A, B]`
yields exactly one record for `A` with price 999 (market) resp. `"999"`
(seller). -/
theorem create_prices_matched_records_only :
    (∀ (ws : List Watch) (ids : List String),
      Seller.create_prices ws ids =
        ((ws.filter (fun w => decide (w.kod ∈ ids))).map Seller.priceItemOf, ids))
    ∧ (∀ (ws : List Watch) (ids : List String) (l : List MarketPriceItem) (fin : List String),
        Market.create_prices ws ids = some (l, fin) →
          l = (ws.filter (fun w => decide (w.kod ∈ ids))).map
              (fun w => ⟨w.kod, ⟨(pyInt (price_conversion w.tsena)).getD 0, ("RUR")⟩⟩)
          ∧ fin = ids)
    ∧ (∀ (ws : List Watch) (ids : List String),
        Market.create_prices ws ids = none ↔
          ∃ w ∈ ws, w.kod ∈ ids ∧ pyInt (price_conversion w.tsena) = none)
    ∧ Market.create_prices [⟨("A"), ("1"), ("999.00")⟩] [("A"), ("B")] =
        some ([⟨("A"), ⟨999, ("RUR")⟩⟩], [("A"), ("B")])
    ∧ Seller.create_prices [⟨("A"), ("1"), ("999.00")⟩] [("A"), ("B")] =
        ([⟨("UNKNOWN"), ("RUB"), ("A"), ("0"), ("999")⟩], [("A"), ("B")]) := by
  refine ⟨?_, ?_, ?_, rfl, rfl⟩
  · intro ws ids
    rw [Seller.create_prices, seller_pricesLoop_eq]
  · intro ws ids l fin h
    exact ⟨market_pricesLoop_some_eq ws ids l fin h, market_pricesLoop_snd ws ids l fin h⟩
  · intro ws ids
    exact market_pricesLoop_none_iff ws ids

/-- Witness for C5: the general market-side characterization applied at
the spec's example — the matched record for `A` yields exactly one
record with price 999 and `offer_ids` is returned unchanged. -/
theorem create_prices_matched_records_only_witness :
    ([(⟨("A"), ⟨999, ("RUR")⟩⟩ : MarketPriceItem)] =
      (([⟨("A"), ("1"), ("999.00")⟩] : List Watch).filter
          (fun w => decide (w.kod ∈ [("A"), ("B")]))).map
        (fun w => ⟨w.kod, ⟨(pyInt (price_conversion w.tsena)).getD 0, ("RUR")⟩⟩))
    ∧ ([("A"), ("B")] : List String) = [("A"), ("B")] :=
  create_prices_matched_records_only.2.1 [⟨("A"), ("1"), ("999.00")⟩] [("A"), ("B")]
    [⟨("A"), ⟨999, ("RUR")⟩⟩] [("A"), ("B")] rfl

/-- C6: `price_conversion` keeps the part of the string before the first
dot, drops every non-digit from it, and never fails; the spec's four
examples are reproduced. -/
theorem price_conversion_spec :
    (∀ s : String, price_conversion s =
      String.mk ((s.toList.takeWhile (fun c => c ≠ '.')).filter Char.isDigit))
    ∧ price_conversion ("12345.67") = ("12345")
    ∧ price_conversion (".12") = ("")
    ∧ price_conversion ("price") = ("")
    ∧ price_conversion ("1,234.5") = ("1234") := by
  refine ⟨?_, rfl, rfl, rfl, rfl⟩
  intro s
  rw [price_conversion, pySplitDot_headD]

/-- C7: for positive `n`, the chunks of `divide` concatenate back to the
input, all chunks except possibly the last have length exactly `n`,
every chunk has length in `[1, n]`, and the output is empty exactly when
the input is.  (The embedding is pure: the input list is never
modified.) -/
theorem divide_spec {α : Type} (lst : List α) (n : Nat) (hn : 0 < n) :
    (divide lst n).flatten = lst
    ∧ (∀ c ∈ (divide lst n).dropLast, c.length = n)
    ∧ (∀ c ∈ divide lst n, 1 ≤ c.length ∧ c.length ≤ n)
    ∧ (divide lst n = [] ↔ lst = []) :=
  ⟨divide_flatten lst n hn, divide_dropLast lst n hn, divide_chunk_len lst n hn,
    divide_eq_nil_iff lst n hn⟩

/-- Witness for C7: chunking `[1,2,3,4,5]` by 2 concatenates back to the
input. -/
theorem divide_spec_witness :
    (divide [1, 2, 3, 4, 5] 2).flatten = [1, 2, 3, 4, 5] :=
  (divide_spec [1, 2, 3, 4, 5] 2 (by decide)).1

/-- C8: both stock reconcilers are deterministic functions of their
inputs — running them again on a fresh copy of the same `offer_ids`
list (and, for `market.py`, the same computed timestamp) produces an
identical output. -/
theorem create_stocks_deterministic (ws : List Watch) (ids ids' : List String)
    (wh d d' : String) (hcopy : ids' = ids) (hd : d' = d) :
    Seller.create_stocks ws ids' = Seller.create_stocks ws ids
    ∧ Market.create_stocks ws ids' wh d' = Market.create_stocks ws ids wh d := by
  subst hcopy
  subst hd
  exact ⟨rfl, rfl⟩

/-- Witness for C8 at a concrete input. -/
theorem create_stocks_deterministic_witness :
    Seller.create_stocks [⟨("A"), ("5"), ("1")⟩] [("A")] =
      Seller.create_stocks [⟨("A"), ("5"), ("1")⟩] [("A")]
    ∧ Market.create_stocks [⟨("A"), ("5"), ("1")⟩] [("A")] ("W") ("T") =
        Market.create_stocks [⟨("A"), ("5"), ("1")⟩] [("A")] ("W") ("T") :=
  create_stocks_deterministic [⟨("A"), ("5"), ("1")⟩] [("A")] [("A")]
    ("W") ("T") ("T") rfl rfl

/-- C9: `create_prices` leaves `offer_ids` unchanged — the seller
variant returns it as given, and whenever the market variant completes
its final `offer_ids` equals the initial one. -/
theorem create_prices_preserves_offer_ids (ws : List Watch) (ids : List String)
    (l : List MarketPriceItem) (fin : List String)
    (h : Market.create_prices ws ids = some (l, fin)) :
    (Seller.create_prices ws ids).2 = ids ∧ fin = ids := by
  constructor
  · rw [Seller.create_prices, seller_pricesLoop_eq]
  · exact market_pricesLoop_snd ws ids l fin h

/-- Witness for C9 at a concrete input. -/
theorem create_prices_preserves_offer_ids_witness :
    (Seller.create_prices [⟨("A"), ("1"), ("2")⟩] [("B")]).2 = [("B")]
    ∧ ([("B")] : List String) = [("B")] :=
  create_prices_preserves_offer_ids [⟨("A"), ("1"), ("2")⟩] [("B")] [] [("B")] rfl

/-- C10: every record emitted by `market.create_stocks` — matched or
zero-filled — carries the single timestamp computed before the loop. -/
theorem market_create_stocks_single_timestamp (ws : List Watch) (ids : List String)
    (wh d : String) (st : List MarketStockItem) (fin : List String)
    (h : Market.create_stocks ws ids wh d = some (st, fin)) :
    ∀ r ∈ st, ∀ e ∈ r.items, e.updatedAt = d := by
  rw [market_create_stocks_eq, Option.map_eq_some'] at h
  obtain ⟨p, hp, hps⟩ := h
  cases hps
  intro r hr e he
  obtain ⟨r', _, rfl⟩ := List.mem_map.mp hr
  simp only [List.mem_singleton] at he
  rw [he]

/-- Witness for C10: in the concrete run both the matched record for `A`
and the zero record for `B` carry the timestamp `"T"`. -/
theorem market_create_stocks_single_timestamp_witness :
    (⟨0, ("FIT"), ("T")⟩ : MarketStockEntry).updatedAt = ("T") :=
  market_create_stocks_single_timestamp [⟨("A"), ("5"), ("1")⟩] [("A"), ("B")]
    ("W") ("T")
    [⟨("A"), ("W"), [⟨5, ("FIT"), ("T")⟩]⟩, ⟨("B"), ("W"), [⟨0, ("FIT"), ("T")⟩]⟩]
    [("B")] rfl
    ⟨("B"), ("W"), [⟨0, ("FIT"), ("T")⟩]⟩ (by decide) ⟨0, ("FIT"), ("T")⟩ (by decide)
